import Mathlib

/-!
Shallow embedding of `bloom/generators/vcpkg/generator.py` (the vcpkg
generator of the bloom release tool) and proofs about it.  Python strings
are modelled as `List Char`; a Python function that can raise is modelled
with `Option`/`Except`.
-/

namespace Bloom

/-- ASCII whitespace: the characters the Python regex class `\s` matches. -/
def isSpace (c : Char) : Bool :=
  c = ' ' || c = '\t' || c = '\n' || c = '\r' || c = '\x0b' || c = '\x0c'

/-- One lazy attempt of `re.compile(r'<.*?>')` just after an opening `<`:
scan for the first `>`; `.` does not match a newline, so a newline before
any `>` makes the attempt fail.  On success, return the characters after
the matched `>`. -/
def matchEnd : List Char → Option (List Char)
  | [] => none
  | c :: cs => if c = '>' then some cs else if c = '\n' then none else matchEnd cs

theorem matchEnd_length {cs rest : List Char} (h : matchEnd cs = some rest) :
    rest.length < cs.length := by
  induction cs with
  | nil => simp [matchEnd] at h
  | cons c cs ih =>
    by_cases hg : c = '>'
    · simp [matchEnd, hg] at h
      subst h
      exact Nat.lt_succ_self _
    · by_cases hn : c = '\n'
      · simp [matchEnd, hg, hn] at h
      · simp [matchEnd, hg, hn] at h
        exact Nat.lt_succ_of_lt (ih h)

/-- `markup_remover.sub('', value)`: delete every non-overlapping, leftmost,
lazy match of `<.*?>` from the string. -/
def removeMarkup (s : List Char) : List Char :=
  match s with
  | [] => []
  | c :: cs =>
    if c = '<' then
      match h : matchEnd cs with
      | some rest => removeMarkup rest
      | none => c :: removeMarkup cs
    else c :: removeMarkup cs
termination_by s.length
decreasing_by
  · exact Nat.lt_succ_of_lt (matchEnd_length h)
  · exact Nat.lt_succ_self _
  · exact Nat.lt_succ_self _

/-- `re.sub('\s+', ' ', value)`: replace every maximal run of whitespace by
one space. -/
def collapseWS (s : List Char) : List Char :=
  match s with
  | [] => []
  | c :: cs =>
    if isSpace c then ' ' :: collapseWS (cs.dropWhile isSpace)
    else c :: collapseWS cs
termination_by s.length
decreasing_by
  · exact Nat.lt_succ_of_le (List.dropWhile_suffix _).length_le
  · exact Nat.lt_succ_self _

/-- Python `value.strip()` from the left only. -/
def lstrip (s : List Char) : List Char := s.dropWhile isSpace

/-- Python `value.strip()` from the right only. -/
def rstrip (s : List Char) : List Char := (s.reverse.dropWhile isSpace).reverse

/-- Python `value.strip()`. -/
def pyStrip (s : List Char) : List Char := rstrip (lstrip s)

/-- `vcpkgize_string`: remove `<...>` markup, collapse whitespace runs to a
single space, trim both ends. -/
def vcpkgize_string (s : List Char) : List Char :=
  pyStrip (collapseWS (removeMarkup s))

/-- No `<` of the string has a `>` anywhere after it, so no further
`<...>` match is possible. -/
def tagSafe : List Char → Prop
  | [] => True
  | c :: cs => (c = '<' → '>' ∉ cs) ∧ tagSafe cs

/-- Every whitespace character of the string is a plain space. -/
def spacesOnly (l : List Char) : Prop :=
  ∀ c ∈ l, isSpace c = true → c = ' '

/-- No two adjacent whitespace characters. -/
def noDoubleWS : List Char → Prop
  | c₁ :: c₂ :: cs => ¬(isSpace c₁ = true ∧ isSpace c₂ = true) ∧ noDoubleWS (c₂ :: cs)
  | _ => True

/-- Python `value.split('. ', 1)`: `some (before, after)` at the first
occurrence of the two-character separator, `none` when there is none. -/
def splitDotSpace : List Char → Option (List Char × List Char)
  | [] => none
  | [_] => none
  | c₁ :: c₂ :: cs =>
    if c₁ = '.' ∧ c₂ = ' ' then some ([], cs)
    else (splitDotSpace (c₂ :: cs)).map (fun p => (c₁ :: p.1, p.2))

/-- `format_description`: normalize, then split once on `'. '`; keep a
single-line synopsis unchanged, otherwise rejoin as
`synopsis + ".\n " + rest.strip()`. -/
def format_description (s : List Char) : List Char :=
  let value := vcpkgize_string s
  match splitDotSpace value with
  | none => value
  | some (a, b) => if b.length = 0 then value else a ++ '.' :: '\n' :: ' ' :: pyStrip b

/-- A catkin package dependency as `format_depends` uses it: only its name. -/
structure Dep where
  name : String
deriving DecidableEq

/-- `format_depends`: flatten, in input order, the resolved names of each
dependency.  `resolved_deps` is the Python dict (`none` = key absent), and a
`none` result models the lookup failure raised for a missing key. -/
def format_depends (depends : List Dep) (resolved_deps : String → Option (List String)) :
    Option (List String) :=
  match depends with
  | [] => some []
  | d :: ds =>
    match resolved_deps d.name with
    | none => none
    | some rs => (format_depends ds resolved_deps).map (fun rest => rs ++ rest)

/-- Python `s.split('/')`. -/
def splitSlash : List Char → List (List Char)
  | [] => [[]]
  | c :: cs =>
    match splitSlash cs with
    | [] => [[]]
    | p :: ps => if c = '/' then [] :: p :: ps else (c :: p) :: ps

/-- The release coordinates `get_subs_hook` stores into `subs`. -/
structure Coords where
  gitSource : List Char
  userName : List Char
  repoName : List Char
deriving DecidableEq

/-- The fatal `error(..., exit=True)` outcomes of `get_subs_hook`. -/
inductive GenError where
  | unsupportedBuildType
  | unsupportedHost
  | indexError
deriving DecidableEq

/-- `vcpkg_support_git_sources = ["github", "gitlab", "bitbucket"]`. -/
def vcpkg_support_git_sources : List (List Char) :=
  ["github".toList, "gitlab".toList, "bitbucket".toList]

/-- The `for git_source in vcpkg_support_git_sources: if git_source in
release_url` loop: the first listed identifier occurring in the URL. -/
def findGitSource (url : List Char) : Option (List Char) :=
  vcpkg_support_git_sources.find? (fun g => decide (g <:+: url))

/-- `if ".git" in repo_name: repo_name = repo_name[:-4]` — note the Python
`in`, a substring test, not a suffix test. -/
def stripDotGit (r : List Char) : List Char :=
  if ['.', 'g', 'i', 't'] <:+: r then r.take (r.length - 4) else r

/-- The release-URL part of `VcpkgGenerator.get_subs_hook`: pick the git
source from the allow-list, read user and repo from the last two
`/`-segments, drop 4 trailing characters when `".git"` occurs in the repo
name.  Fewer than two segments (Python IndexError) is `.error .indexError`. -/
def resolveCoords (url : List Char) : Except GenError Coords :=
  match findGitSource url with
  | none => Except.error GenError.unsupportedHost
  | some g =>
    match (splitSlash url).reverse with
    | r :: u :: _ => Except.ok ⟨g, u, stripDotGit r⟩
    | _ => Except.error GenError.indexError

/-- The `subs` fields the tag-name template reads. -/
structure TagSubs where
  Package : String
  Version : String
  Inc : String
  Distribution : String
deriving DecidableEq

/-- Lookup of a `str.format` placeholder among the tag-template fields. -/
def subsField (ts : TagSubs) (key : List Char) : Option String :=
  if key = "Package".toList then some ts.Package
  else if key = "Version".toList then some ts.Version
  else if key = "Inc".toList then some ts.Inc
  else if key = "Distribution".toList then some ts.Distribution
  else none

/-- Scan to the closing brace of a `str.format` placeholder; `some (key,
rest)` with the characters after the brace. -/
def readKey : List Char → Option (List Char × List Char)
  | [] => none
  | c :: cs =>
    if c = '\x7d' then some ([], cs)
    else (readKey cs).map (fun p => (c :: p.1, p.2))

theorem readKey_length {cs : List Char} {k rest : List Char}
    (h : readKey cs = some (k, rest)) : rest.length < cs.length := by
  induction cs generalizing k rest with
  | nil => simp [readKey] at h
  | cons c cs ih =>
    by_cases hc : c = '\x7d'
    · rw [readKey, if_pos hc] at h
      injection h with h
      injection h with h1 h2
      subst h2
      exact Nat.lt_succ_self _
    · rw [readKey, if_neg hc] at h
      cases hp : readKey cs with
      | none => rw [hp] at h; simp at h
      | some p =>
        obtain ⟨k1, r1⟩ := p
        rw [hp] at h
        simp only [Option.map] at h
        injection h with h
        injection h with h1 h2
        subst h2
        exact Nat.lt_succ_of_lt (ih hp)

/-- Python `template.format(**subs)` restricted to plain `{name}`
placeholders, as the tag-name template uses. -/
def pyFormat (t : List Char) (ts : TagSubs) : List Char :=
  match t with
  | [] => []
  | c :: cs =>
    if c = '\x7b' then
      match h : readKey cs with
      | some (k, rest) =>
        (match subsField ts k with
         | some v => v.toList
         | none => []) ++ pyFormat rest ts
      | none => c :: pyFormat cs ts
    else c :: pyFormat cs ts
termination_by t.length
decreasing_by
  · exact Nat.lt_succ_of_lt (readKey_length h)
  · exact Nat.lt_succ_self _
  · exact Nat.lt_succ_self _

/-- `VcpkgGenerator.package_manager`. -/
def package_manager : String := "vcpkg"

/-- `VcpkgGenerator.generate_tag_name`: the fixed template
`'{Package}_{Version}-{Inc}_{Distribution}'` formatted from `subs`,
prefixed by the package manager and a slash. -/
def generate_tag_name (ts : TagSubs) : List Char :=
  package_manager.toList ++ '/' ::
    pyFormat ("\x7bPackage\x7d_\x7bVersion\x7d-\x7bInc\x7d_\x7bDistribution\x7d".toList) ts

/-- What `get_subs_hook` adds to `subs`. -/
structure HookResult where
  coords : Coords
  tagName : List Char
deriving DecidableEq

/-- `VcpkgGenerator.get_subs_hook`, with the rosdistro-provided release URL
and the template substitution fields taken as inputs; each
`error(..., exit=True)` is an `.error`. -/
def get_subs_hook (build_type : String) (release_url : List Char) (ts : TagSubs) :
    Except GenError HookResult :=
  if build_type = "ament_cmake" then
    match resolveCoords release_url with
    | Except.error e => Except.error e
    | Except.ok c => Except.ok ⟨c, generate_tag_name ts⟩
  else Except.error GenError.unsupportedBuildType

/-- A changelog tuple `(version, date, changes, name, email)`. -/
abbrev ChangelogEntry := String × String × String × String × String

/-- `[(v, (n, e)) for v, _, _, n, e in subs['changelogs']]`. -/
def releaser_history (changelogs : List ChangelogEntry) :
    List (String × String × String) :=
  changelogs.map (fun t => (t.1, t.2.2.2))

/-- Insertion into a Python dict model: overwrite the key in place or
append a new binding. -/
def dictInsert {β : Type} : List (String × β) → String → β → List (String × β)
  | [], k, v => [(k, v)]
  | p :: ps, k, v => if p.1 = k then (k, v) :: ps else p :: dictInsert ps k v

/-- Python `dict(pairs)`: insert the pairs left to right into an empty dict,
so a repeated key keeps the value of its last pair. -/
def pyDict {β : Type} (l : List (String × β)) : List (String × β) :=
  l.foldl (fun d p => dictInsert d p.1 p.2) []

/-- Lookup in the dict model. -/
def dictFind {β : Type} (d : List (String × β)) (k : String) : Option β :=
  (d.find? (fun p => p.1 == k)).map Prod.snd

/-- A resolved-dependency map used as a concrete test input. -/
def exampleResolved : String → Option (List String) :=
  fun n => if n = "A" then some ["a1", "a2"] else if n = "B" then some ["b1"] else none

/-! ### Lemmas about `format_depends` -/

theorem format_depends_all_some (depends : List Dep)
    (resolved : String → Option (List String))
    (h : ∀ d ∈ depends, (resolved d.name).isSome) :
    format_depends depends resolved =
      some (depends.map (fun d => (resolved d.name).getD [])).flatten := by
  induction depends with
  | nil => rfl
  | cons d ds ih =>
    obtain ⟨rs, hrs⟩ := Option.isSome_iff_exists.mp (h d (by simp))
    have ih2 := ih (fun x hx => h x (by simp [hx]))
    rw [format_depends, hrs, ih2]
    simp [hrs]

/-- **C4**: `format_depends` preserves the input order of the dependencies
and the internal order of each dependency's resolved list: with every name
resolved, the output is the order-preserving concatenation of the resolved
lists; for depends `[A, B]` with `A ↦ [a1, a2]`, `B ↦ [b1]` it returns
`[a1, a2, b1]`. -/
theorem format_depends_preserves_order :
    (∀ (depends : List Dep) (resolved : String → Option (List String)),
      (∀ d ∈ depends, (resolved d.name).isSome) →
      format_depends depends resolved =
        some (depends.map (fun d => (resolved d.name).getD [])).flatten) ∧
    format_depends [⟨"A"⟩, ⟨"B"⟩] exampleResolved = some ["a1", "a2", "b1"] := by
  refine ⟨format_depends_all_some, ?_⟩
  rfl

/-- **C5**: `format_depends` fails (the dict lookup raises, modelled by
`none`) if and only if some dependency's name has no entry in the
resolved-dependency map; with every name present no failure occurs. -/
theorem format_depends_unresolved_iff :
    ∀ (depends : List Dep) (resolved : String → Option (List String)),
      format_depends depends resolved = none ↔ ∃ d ∈ depends, resolved d.name = none := by
  intro depends resolved
  induction depends with
  | nil => simp [format_depends]
  | cons d ds ih =>
    rw [format_depends]
    cases hd : resolved d.name with
    | none => simp [hd]
    | some rs => simp [hd, Option.map_eq_none', ih]

/-- **C10**: when every dependency name is resolved, the output length of
`format_depends` is the sum of the lengths of the resolved lists — no
deduplication, so repeated resolved names appear with their multiplicity —
and the empty dependency list yields the empty output. -/
theorem format_depends_length_spec :
    (∀ (depends : List Dep) (resolved : String → Option (List String)),
      (∀ d ∈ depends, (resolved d.name).isSome) →
      ∃ out, format_depends depends resolved = some out ∧
        out.length = (depends.map (fun d => ((resolved d.name).getD []).length)).sum) ∧
    (∀ resolved : String → Option (List String), format_depends [] resolved = some []) ∧
    format_depends [⟨"A"⟩, ⟨"A"⟩] exampleResolved = some ["a1", "a2", "a1", "a2"] := by
  refine ⟨?_, fun _ => rfl, rfl⟩
  intro depends resolved h
  refine ⟨_, format_depends_all_some depends resolved h, ?_⟩
  simp only [List.length_flatten, List.map_map]
  rfl

/-! ### Tag-name synthesis and the build-type gate -/

theorem resolveCoords_error_cases {url : List Char} {e : GenError}
    (h : resolveCoords url = Except.error e) :
    e = GenError.unsupportedHost ∨ e = GenError.indexError := by
  rw [resolveCoords] at h
  cases hf : findGitSource url with
  | none => rw [hf] at h; injection h with h; exact Or.inl h.symm
  | some g =>
    rw [hf] at h
    cases hr : (splitSlash url).reverse with
    | nil => rw [hr] at h; injection h with h; exact Or.inr h.symm
    | cons r t =>
      cases t with
      | nil => rw [hr] at h; injection h with h; exact Or.inr h.symm
      | cons u t2 => rw [hr] at h; exact absurd h (by simp)

/-- **C7**: `generate_tag_name` formats the fixed template
`'{Package}_{Version}-{Inc}_{Distribution}'`, prefixed by the package
manager and a slash, substituting the four fields verbatim; it is
deterministic in the four fields, and on Package `widget`, Version `1.2.0`,
Inc `1`, Distribution `humble` it returns exactly
`vcpkg/widget_1.2.0-1_humble`. -/
theorem generate_tag_name_spec :
    (∀ ts : TagSubs, generate_tag_name ts =
      "vcpkg/".toList ++ ts.Package.toList ++ '_' :: ts.Version.toList ++
        '-' :: ts.Inc.toList ++ '_' :: ts.Distribution.toList) ∧
    (∀ ts₁ ts₂ : TagSubs, ts₁.Package = ts₂.Package → ts₁.Version = ts₂.Version →
      ts₁.Inc = ts₂.Inc → ts₁.Distribution = ts₂.Distribution →
      generate_tag_name ts₁ = generate_tag_name ts₂) ∧
    generate_tag_name ⟨"widget", "1.2.0", "1", "humble"⟩ =
      "vcpkg/widget_1.2.0-1_humble".toList := by
  have key : ∀ ts : TagSubs, generate_tag_name ts =
      "vcpkg/".toList ++ ts.Package.toList ++ '_' :: ts.Version.toList ++
        '-' :: ts.Inc.toList ++ '_' :: ts.Distribution.toList := by
    intro ts
    simp [generate_tag_name, pyFormat, readKey, subsField, package_manager]
  refine ⟨key, ?_, ?_⟩
  · intro ts₁ ts₂ h1 h2 h3 h4
    rw [key, key, h1, h2, h3, h4]
  · rw [key]
    rfl

/-- **C8**: `get_subs_hook` validates the build type first: any build type
other than `ament_cmake` fails with the unsupported-build-type error no
matter what the release URL or the substitution fields are, while with
build type `ament_cmake` that error can never be the outcome. -/
theorem get_subs_hook_build_type_spec :
    (∀ (bt : String) (url : List Char) (ts : TagSubs), bt ≠ "ament_cmake" →
      get_subs_hook bt url ts = Except.error GenError.unsupportedBuildType) ∧
    (∀ (url : List Char) (ts : TagSubs) (e : GenError),
      get_subs_hook "ament_cmake" url ts = Except.error e →
      e ≠ GenError.unsupportedBuildType) ∧
    get_subs_hook "catkin" "https://github.com/acme/widget.git".toList
      ⟨"widget", "1.2.0", "1", "humble"⟩ = Except.error GenError.unsupportedBuildType := by
  refine ⟨?_, ?_, ?_⟩
  · intro bt url ts hbt
    rw [get_subs_hook, if_neg hbt]
  · intro url ts e h
    rw [get_subs_hook, if_pos rfl] at h
    cases hr : resolveCoords url with
    | error e2 =>
      rw [hr] at h
      injection h with h
      subst h
      rcases resolveCoords_error_cases hr with h2 | h2 <;> simp [h2]
    | ok c => rw [hr] at h; exact absurd h (by simp)
  · rw [get_subs_hook, if_neg (by decide)]

/-! ### The releaser-history dict -/

theorem dictFind_dictInsert {β : Type} (d : List (String × β)) (k k₂ : String) (v : β) :
    dictFind (dictInsert d k v) k₂ = if k = k₂ then some v else dictFind d k₂ := by
  induction d with
  | nil =>
    by_cases h : k = k₂
    · have hb : (k == k₂) = true := beq_iff_eq.mpr h
      simp [dictInsert, dictFind, List.find?, h, hb]
    · have hb : (k == k₂) = false := beq_eq_false_iff_ne.mpr h
      simp [dictInsert, dictFind, List.find?, h, hb]
  | cons p ps ih =>
    by_cases hp : p.1 = k
    · rw [dictInsert, if_pos hp]
      by_cases h : k = k₂
      · have hb : (k == k₂) = true := beq_iff_eq.mpr h
        simp [dictFind, List.find?, h, hb]
      · have hb : (k == k₂) = false := beq_eq_false_iff_ne.mpr h
        have hp2 : (p.1 == k₂) = false := beq_eq_false_iff_ne.mpr (by rw [hp]; exact h)
        simp [dictFind, List.find?, h, hb, hp2]
    · rw [dictInsert, if_neg hp]
      by_cases hq : p.1 = k₂
      · have h : ¬ k = k₂ := fun he => hp (by rw [he]; exact hq)
        have hb : (p.1 == k₂) = true := beq_iff_eq.mpr hq
        simp [dictFind, List.find?, h, hb]
      · have hb : (p.1 == k₂) = false := beq_eq_false_iff_ne.mpr hq
        have := ih
        simp only [dictFind, List.find?] at this ⊢
        simp [hb, this]

theorem dictFind_foldl_insert {β : Type} (l : List (String × β))
    (d : List (String × β)) (k : String) :
    dictFind (l.foldl (fun d p => dictInsert d p.1 p.2) d) k =
      match l.reverse.find? (fun p => p.1 == k) with
      | some p => some p.2
      | none => dictFind d k := by
  induction l generalizing d with
  | nil => simp
  | cons p ps ih =>
    rw [List.foldl_cons, ih, List.reverse_cons, List.find?_append]
    cases hf : ps.reverse.find? (fun p => p.1 == k) with
    | some q => rfl
    | none =>
      by_cases hp : p.1 = k
      · have hb : (p.1 == k) = true := beq_iff_eq.mpr hp
        simp [Option.or, List.find?, hb, dictFind_dictInsert, hp]
      · have hb : (p.1 == k) = false := beq_eq_false_iff_ne.mpr hp
        simp [Option.or, List.find?, hb, dictFind_dictInsert, hp]

/-- **C9**: building the releaser history — `dict` over the pairs
`(version, (name, email))` read off the changelog tuples — maps each
version to the (name, email) of its **last** changelog entry: for a
version occurring several times, the entry last in changelog order wins. -/
theorem releaser_history_last_writer :
    (∀ (changelogs : List ChangelogEntry) (v : String),
      dictFind (pyDict (releaser_history changelogs)) v =
        (changelogs.reverse.find? (fun t => t.1 == v)).map (fun t => t.2.2.2)) ∧
    dictFind (pyDict (releaser_history
        [("1.0", "d1", "c1", "alice", "a1@e"), ("2.0", "d2", "c2", "bob", "b@e"),
         ("1.0", "d3", "c3", "carol", "c@e")])) "1.0" =
      some ("carol", "c@e") := by
  have key : ∀ (changelogs : List ChangelogEntry) (v : String),
      dictFind (pyDict (releaser_history changelogs)) v =
        (changelogs.reverse.find? (fun t => t.1 == v)).map (fun t => t.2.2.2) := by
    intro changelogs v
    rw [pyDict, dictFind_foldl_insert]
    rw [releaser_history, ← List.map_reverse, List.find?_map]
    cases hf : changelogs.reverse.find? (fun t => t.1 == v) with
    | none =>
      have : changelogs.reverse.find?
          ((fun p => p.1 == v) ∘ fun t => (t.1, t.2.2.2)) = none := by
        rw [← hf]; rfl
      simp [this, dictFind]
    | some q =>
      have : changelogs.reverse.find?
          ((fun p => p.1 == v) ∘ fun t => (t.1, t.2.2.2)) = some q := by
        rw [← hf]; rfl
      simp [this]
  refine ⟨key, ?_⟩
  rw [key]
  rfl

/-! ### URL resolution -/

theorem splitSlash_ne_nil (s : List Char) : splitSlash s ≠ [] := by
  cases s with
  | nil => simp [splitSlash]
  | cons c cs =>
    rw [splitSlash]
    cases splitSlash cs with
    | nil => simp
    | cons p ps =>
      by_cases h : c = '/' <;> simp [h]

theorem splitSlash_append (x y : List Char) :
    splitSlash (x ++ '/' :: y) = splitSlash x ++ splitSlash y := by
  induction x with
  | nil =>
    rw [List.nil_append]
    cases hy : splitSlash y with
    | nil => exact absurd hy (splitSlash_ne_nil y)
    | cons p ps => simp [splitSlash, hy]
  | cons c cs ih =>
    rw [List.cons_append, splitSlash, ih]
    cases hc : splitSlash cs with
    | nil => exact absurd hc (splitSlash_ne_nil cs)
    | cons p ps =>
      rw [splitSlash, hc]
      by_cases h : c = '/' <;> simp [h]

theorem splitSlash_of_no_slash {s : List Char} (h : '/' ∉ s) : splitSlash s = [s] := by
  induction s with
  | nil => rfl
  | cons c cs ih =>
    have hc : ¬ c = '/' := fun he => h (by rw [he]; exact List.mem_cons_self ..)
    have hcs := ih (fun hm => h (List.mem_cons_of_mem _ hm))
    rw [splitSlash, hcs]
    simp [hc]

/-- **C1** (amended): for a release URL whose last two `/`-segments are
`u` and `r`, the resolver takes `u` as userName and `r` as repoName, and it
removes exactly the trailing 4 characters of `r` when and only when the
four-character string `.git` occurs as a **substring** of `r` (the Python
`in` test) — not only when it is a suffix; for
`https://github.com/acme/widget.git` it yields gitSource `github`,
userName `acme`, repoName `widget`. -/
theorem resolveCoords_url_spec :
    (∀ (pre u r : List Char), '/' ∉ u → '/' ∉ r →
      ∀ g, findGitSource (pre ++ '/' :: u ++ '/' :: r) = some g →
        resolveCoords (pre ++ '/' :: u ++ '/' :: r) = Except.ok ⟨g, u, stripDotGit r⟩) ∧
    (∀ r : List Char,
      (['.', 'g', 'i', 't'] <:+: r → stripDotGit r = r.take (r.length - 4)) ∧
      (¬ ['.', 'g', 'i', 't'] <:+: r → stripDotGit r = r)) ∧
    resolveCoords "https://github.com/acme/widget.git".toList =
      Except.ok ⟨"github".toList, "acme".toList, "widget".toList⟩ := by
  refine ⟨?_, ?_, ?_⟩
  · intro pre u r hu hr g hg
    rw [resolveCoords, hg]
    have e1 : (pre ++ '/' :: u ++ '/' :: r) = pre ++ '/' :: (u ++ '/' :: r) := by
      simp
    have hsplit : splitSlash (pre ++ '/' :: u ++ '/' :: r) =
        splitSlash pre ++ ([u] ++ [r]) := by
      rw [e1, splitSlash_append, splitSlash_append, splitSlash_of_no_slash hu,
        splitSlash_of_no_slash hr]
    rw [hsplit]
    simp
  · intro r
    constructor
    · intro h; rw [stripDotGit, if_pos h]
    · intro h; rw [stripDotGit, if_neg h]
  · rfl

/-- **C1** is false as stated: for the URL
`https://github.com/acme/wid.gitx`, whose repo segment `wid.gitx` does
**not** end with `.git`, the resolver still chops 4 characters, returning
repoName `wid.` instead of leaving it unchanged. -/
theorem resolveCoords_counterexample :
    resolveCoords "https://github.com/acme/wid.gitx".toList =
      Except.ok ⟨"github".toList, "acme".toList, "wid.".toList⟩ ∧
    ¬ (['.', 'g', 'i', 't'] <:+ "wid.gitx".toList) ∧
    "wid.".toList ≠ "wid.gitx".toList := by
  exact ⟨rfl, by decide, by decide⟩

/-- **C6**: the resolver tests the release URL against the fixed ordered
allow-list github, gitlab, bitbucket by substring match, first listed match
winning and becoming the git source; when none occurs in the URL it fails
with the unsupported-host error and produces no coordinates. -/
theorem findGitSource_spec :
    (∀ url : List Char,
      ("github".toList <:+: url → findGitSource url = some "github".toList) ∧
      (¬ "github".toList <:+: url → "gitlab".toList <:+: url →
        findGitSource url = some "gitlab".toList) ∧
      (¬ "github".toList <:+: url → ¬ "gitlab".toList <:+: url →
        "bitbucket".toList <:+: url → findGitSource url = some "bitbucket".toList) ∧
      (¬ "github".toList <:+: url → ¬ "gitlab".toList <:+: url →
        ¬ "bitbucket".toList <:+: url →
        findGitSource url = none ∧
          resolveCoords url = Except.error GenError.unsupportedHost)) ∧
    (∀ (url : List Char) (c : Coords), resolveCoords url = Except.ok c →
      ∃ g, findGitSource url = some g ∧ c.gitSource = g) ∧
    resolveCoords "https://example.com/a/b".toList =
      Except.error GenError.unsupportedHost := by
  refine ⟨?_, ?_, ?_⟩
  · intro url
    refine ⟨?_, ?_, ?_, ?_⟩
    · intro h1
      have b1 : decide (['g', 'i', 't', 'h', 'u', 'b'] <:+: url) = true :=
        decide_eq_true h1
      simp [findGitSource, vcpkg_support_git_sources, List.find?, b1]
    · intro h1 h2
      have b1 : decide (['g', 'i', 't', 'h', 'u', 'b'] <:+: url) = false :=
        decide_eq_false h1
      have b2 : decide (['g', 'i', 't', 'l', 'a', 'b'] <:+: url) = true :=
        decide_eq_true h2
      simp [findGitSource, vcpkg_support_git_sources, List.find?, b1, b2]
    · intro h1 h2 h3
      have b1 : decide (['g', 'i', 't', 'h', 'u', 'b'] <:+: url) = false :=
        decide_eq_false h1
      have b2 : decide (['g', 'i', 't', 'l', 'a', 'b'] <:+: url) = false :=
        decide_eq_false h2
      have b3 : decide (['b', 'i', 't', 'b', 'u', 'c', 'k', 'e', 't'] <:+: url) = true :=
        decide_eq_true h3
      simp [findGitSource, vcpkg_support_git_sources, List.find?, b1, b2, b3]
    · intro h1 h2 h3
      have b1 : decide (['g', 'i', 't', 'h', 'u', 'b'] <:+: url) = false :=
        decide_eq_false h1
      have b2 : decide (['g', 'i', 't', 'l', 'a', 'b'] <:+: url) = false :=
        decide_eq_false h2
      have b3 : decide (['b', 'i', 't', 'b', 'u', 'c', 'k', 'e', 't'] <:+: url) = false :=
        decide_eq_false h3
      have hf : findGitSource url = none := by
        simp [findGitSource, vcpkg_support_git_sources, List.find?, b1, b2, b3]
      exact ⟨hf, by rw [resolveCoords, hf]⟩
  · intro url c h
    rw [resolveCoords] at h
    cases hf : findGitSource url with
    | none => rw [hf] at h; exact absurd h (by simp)
    | some g =>
      rw [hf] at h
      refine ⟨g, rfl, ?_⟩
      cases hr : (splitSlash url).reverse with
      | nil => rw [hr] at h; exact absurd h (by simp)
      | cons r t =>
        cases t with
        | nil => rw [hr] at h; exact absurd h (by simp)
        | cons u t2 =>
          rw [hr] at h
          injection h with h
          rw [← h]
  · rfl

/-! ### Splitting a description on the first `'. '` -/

theorem cons2_dot_space_decomp {c₁ c₂ : Char} {cs : List Char} :
    (∃ a b, c₁ :: c₂ :: cs = a ++ '.' :: ' ' :: b) ↔
      ((c₁ = '.' ∧ c₂ = ' ') ∨ ∃ a b, c₂ :: cs = a ++ '.' :: ' ' :: b) := by
  constructor
  · rintro ⟨a, b, h⟩
    cases a with
    | nil =>
      simp only [List.nil_append] at h
      injection h with h1 h2
      injection h2 with h2 h3
      exact Or.inl ⟨h1, h2⟩
    | cons x a2 =>
      rw [List.cons_append] at h
      injection h with h1 h2
      exact Or.inr ⟨a2, b, h2⟩
  · rintro (⟨h1, h2⟩ | ⟨a, b, h⟩)
    · exact ⟨[], cs, by rw [h1, h2]; rfl⟩
    · exact ⟨c₁ :: a, b, by rw [List.cons_append, h]⟩

theorem splitDotSpace_none_iff : ∀ {s : List Char},
    splitDotSpace s = none ↔ ¬ ∃ a b, s = a ++ '.' :: ' ' :: b := by
  intro s
  induction s with
  | nil =>
    refine iff_of_true rfl ?_
    rintro ⟨a, b, h⟩
    cases a <;> simp at h
  | cons c₁ t ih =>
    cases t with
    | nil =>
      refine iff_of_true rfl ?_
      rintro ⟨a, b, h⟩
      cases a with
      | nil => simp at h
      | cons x a2 =>
        rw [List.cons_append] at h
        injection h with h1 h2
        cases a2 <;> simp at h2
    | cons c₂ cs =>
      rw [splitDotSpace]
      by_cases hd : c₁ = '.' ∧ c₂ = ' '
      · rw [if_pos hd]
        refine iff_of_false (by simp) ?_
        intro hno
        exact hno ⟨[], cs, by rw [hd.1, hd.2]; rfl⟩
      · rw [if_neg hd, Option.map_eq_none', ih, cons2_dot_space_decomp]
        simp [hd]

theorem splitDotSpace_some : ∀ {s a b : List Char},
    splitDotSpace s = some (a, b) →
    s = a ++ '.' :: ' ' :: b ∧
      ∀ a₂ b₂, s = a₂ ++ '.' :: ' ' :: b₂ → a.length ≤ a₂.length := by
  intro s
  induction s with
  | nil => intro a b h; simp [splitDotSpace] at h
  | cons c₁ t ih =>
    cases t with
    | nil => intro a b h; simp [splitDotSpace] at h
    | cons c₂ cs =>
      intro a b h
      rw [splitDotSpace] at h
      by_cases hd : c₁ = '.' ∧ c₂ = ' '
      · rw [if_pos hd] at h
        injection h with h
        injection h with h1 h2
        subst h1
        subst h2
        constructor
        · rw [hd.1, hd.2]; rfl
        · intro a₂ b₂ _; simp
      · rw [if_neg hd] at h
        cases hp : splitDotSpace (c₂ :: cs) with
        | none => rw [hp] at h; simp at h
        | some p =>
          obtain ⟨a1, b1⟩ := p
          rw [hp] at h
          simp only [Option.map] at h
          injection h with h
          injection h with h1 h2
          subst h2
          have hih := ih hp
          constructor
          · rw [← h1, List.cons_append, ← hih.1]
          · intro a₂ b₂ he
            cases a₂ with
            | nil =>
              simp only [List.nil_append] at he
              injection he with he1 he2
              injection he2 with he2 he3
              exact absurd ⟨he1, he2⟩ hd
            | cons x a₃ =>
              rw [List.cons_append] at he
              injection he with he1 he2
              have := hih.2 a₃ b₂ he2
              rw [← h1]
              simpa using Nat.succ_le_succ this

/-- **C2**: after normalization, if the normalized text has no occurrence
of `'. '`, or the part after its first occurrence is empty,
`format_description` returns the normalized text unchanged; otherwise it
returns the part before the first `'. '`, then `'.'`, a newline, one
space, and the trimmed remainder; in particular `"A. B"` becomes
`"A.\n B"`. -/
theorem format_description_spec :
    (∀ s : List Char,
      ((¬ ∃ a b, vcpkgize_string s = a ++ '.' :: ' ' :: b) →
        format_description s = vcpkgize_string s) ∧
      (∀ a b, vcpkgize_string s = a ++ '.' :: ' ' :: b →
        (∀ a₂ b₂, vcpkgize_string s = a₂ ++ '.' :: ' ' :: b₂ → a.length ≤ a₂.length) →
        (b = [] → format_description s = vcpkgize_string s) ∧
        (b ≠ [] → format_description s = a ++ '.' :: '\n' :: ' ' :: pyStrip b))) ∧
    format_description "A. B".toList = "A.\n B".toList := by
  constructor
  · intro s
    constructor
    · intro hno
      have hn : splitDotSpace (vcpkgize_string s) = none := splitDotSpace_none_iff.mpr hno
      simp only [format_description]
      rw [hn]
    · intro a b hdec hmin
      cases hsp : splitDotSpace (vcpkgize_string s) with
      | none => exact absurd ⟨a, b, hdec⟩ (splitDotSpace_none_iff.mp hsp)
      | some p =>
        obtain ⟨a1, b1⟩ := p
        have h1 := splitDotSpace_some hsp
        have hlen : a1.length = a.length :=
          Nat.le_antisymm (h1.2 a b hdec) (hmin a1 b1 h1.1)
        obtain ⟨ha, hb⟩ := List.append_inj (h1.1.symm.trans hdec) hlen
        injection hb with hb1 hb2
        injection hb2 with hb2 hb3
        rw [ha, hb3] at hsp
        constructor
        · intro hbnil
          simp only [format_description]
          rw [hsp, hbnil]
          simp
        · intro hbne
          have hlne : ¬ (b.length = 0) := by
            simpa using hbne
          simp only [format_description]
          rw [hsp]
          simp [hlne]
  · simp [format_description, vcpkgize_string, removeMarkup, matchEnd, collapseWS,
      pyStrip, lstrip, rstrip, isSpace, splitDotSpace]

/-! ### Markup removal: every surviving `<` has no `>` after it -/

theorem matchEnd_suffix : ∀ {cs rest : List Char}, matchEnd cs = some rest → rest <:+ cs := by
  intro cs
  induction cs with
  | nil => intro rest h; simp [matchEnd] at h
  | cons c cs ih =>
    intro rest h
    by_cases hg : c = '>'
    · simp [matchEnd, hg] at h
      subst h
      exact List.suffix_cons c cs
    · by_cases hn : c = '\n'
      · simp [matchEnd, hg, hn] at h
      · simp [matchEnd, hg, hn] at h
        exact (ih h).trans (List.suffix_cons c cs)

theorem matchEnd_some_gt : ∀ {cs rest : List Char}, matchEnd cs = some rest → '>' ∈ cs := by
  intro cs
  induction cs with
  | nil => intro rest h; simp [matchEnd] at h
  | cons c cs ih =>
    intro rest h
    by_cases hg : c = '>'
    · rw [hg]; exact List.mem_cons_self ..
    · by_cases hn : c = '\n'
      · simp [matchEnd, hg, hn] at h
      · simp [matchEnd, hg, hn] at h
        exact List.mem_cons_of_mem c (ih h)

theorem matchEnd_none_no_gt : ∀ {cs : List Char}, matchEnd cs = none → '\n' ∉ cs → '>' ∉ cs := by
  intro cs
  induction cs with
  | nil => intro _ _ h; simp at h
  | cons c cs ih =>
    intro h hnl hmem
    by_cases hg : c = '>'
    · simp [matchEnd, hg] at h
    · by_cases hn : c = '\n'
      · exact hnl (by rw [← hn]; exact List.mem_cons_self ..)
      · simp [matchEnd, hg, hn] at h
        rcases List.mem_cons.mp hmem with h2 | h2
        · exact hg h2.symm
        · exact ih h (fun hx => hnl (List.mem_cons_of_mem c hx)) h2

theorem removeMarkup_subset : ∀ (s : List Char), ∀ x ∈ removeMarkup s, x ∈ s := by
  intro s
  induction s using removeMarkup.induct with
  | case1 => intro x hx; simp [removeMarkup] at hx
  | case2 cs rest heq ih =>
    intro x hx
    rw [removeMarkup, if_pos rfl, heq] at hx
    exact List.mem_cons_of_mem _ ((matchEnd_suffix heq).subset (ih x hx))
  | case3 cs heq ih =>
    intro x hx
    rw [removeMarkup, if_pos rfl, heq] at hx
    rcases List.mem_cons.mp hx with h2 | h2
    · rw [h2]; exact List.mem_cons_self ..
    · exact List.mem_cons_of_mem _ (ih x h2)
  | case4 c cs hne ih =>
    intro x hx
    rw [removeMarkup, if_neg hne] at hx
    rcases List.mem_cons.mp hx with h2 | h2
    · rw [h2]; exact List.mem_cons_self ..
    · exact List.mem_cons_of_mem _ (ih x h2)

theorem tagSafe_append_right {a b : List Char} (h : tagSafe (a ++ b)) : tagSafe b := by
  induction a with
  | nil => exact h
  | cons c a2 ih => exact ih h.2

theorem tagSafe_append_left {a b : List Char} (h : tagSafe (a ++ b)) : tagSafe a := by
  induction a with
  | nil => trivial
  | cons c a2 ih =>
    exact ⟨fun hc hm => h.1 hc (List.mem_append_left b hm), ih h.2⟩

theorem tagSafe_of_suffix {l m : List Char} (hs : l <:+ m) (h : tagSafe m) : tagSafe l := by
  obtain ⟨t, rfl⟩ := hs
  exact tagSafe_append_right h

theorem tagSafe_of_isPrefix {l m : List Char} (hp : l <+: m) (h : tagSafe m) : tagSafe l := by
  obtain ⟨t, rfl⟩ := hp
  exact tagSafe_append_left h

theorem removeMarkup_tagSafe : ∀ (s : List Char), '\n' ∉ s → tagSafe (removeMarkup s) := by
  intro s
  induction s using removeMarkup.induct with
  | case1 => intro _; simp [removeMarkup, tagSafe]
  | case2 cs rest heq ih =>
    intro hnl
    rw [removeMarkup, if_pos rfl, heq]
    exact ih (fun hx => hnl (List.mem_cons_of_mem _ ((matchEnd_suffix heq).subset hx)))
  | case3 cs heq ih =>
    intro hnl
    rw [removeMarkup, if_pos rfl, heq]
    have hnl2 : '\n' ∉ cs := fun hx => hnl (List.mem_cons_of_mem _ hx)
    have hgt : '>' ∉ cs := matchEnd_none_no_gt heq hnl2
    refine ⟨fun _ hm => hgt (removeMarkup_subset cs _ hm), ih hnl2⟩
  | case4 c cs hne ih =>
    intro hnl
    rw [removeMarkup, if_neg hne]
    exact ⟨fun hc => absurd hc hne, ih (fun hx => hnl (List.mem_cons_of_mem _ hx))⟩

theorem removeMarkup_eq_self_of_tagSafe : ∀ {l : List Char}, tagSafe l → removeMarkup l = l := by
  intro l
  induction l with
  | nil => intro _; simp [removeMarkup]
  | cons c cs ih =>
    intro h
    by_cases hc : c = '<'
    · have hgt : '>' ∉ cs := h.1 hc
      have hme : matchEnd cs = none := by
        cases hme : matchEnd cs with
        | none => rfl
        | some rest => exact absurd (matchEnd_some_gt hme) hgt
      rw [removeMarkup, if_pos hc, hme, ih h.2]
    · rw [removeMarkup, if_neg hc, ih h.2]

/-! ### Whitespace collapsing: all whitespace becomes single spaces -/

theorem collapseWS_mem : ∀ (l : List Char), ∀ x ∈ collapseWS l, x = ' ' ∨ x ∈ l := by
  intro l
  induction l using collapseWS.induct with
  | case1 => intro x hx; simp [collapseWS] at hx
  | case2 c cs hsp ih =>
    intro x hx
    rw [collapseWS, if_pos hsp] at hx
    rcases List.mem_cons.mp hx with h2 | h2
    · exact Or.inl h2
    · rcases ih x h2 with h3 | h3
      · exact Or.inl h3
      · exact Or.inr (List.mem_cons_of_mem _ ((List.dropWhile_suffix _).subset h3))
  | case3 c cs hsp ih =>
    intro x hx
    rw [collapseWS, if_neg hsp] at hx
    rcases List.mem_cons.mp hx with h2 | h2
    · exact Or.inr (by rw [h2]; exact List.mem_cons_self ..)
    · rcases ih x h2 with h3 | h3
      · exact Or.inl h3
      · exact Or.inr (List.mem_cons_of_mem _ h3)

theorem collapseWS_tagSafe : ∀ {l : List Char}, tagSafe l → tagSafe (collapseWS l) := by
  intro l
  induction l using collapseWS.induct with
  | case1 => intro _; simp [collapseWS, tagSafe]
  | case2 c cs hsp ih =>
    intro h
    rw [collapseWS, if_pos hsp]
    refine ⟨fun hc => absurd hc (by decide), ?_⟩
    exact ih (tagSafe_of_suffix (List.dropWhile_suffix _) h.2)
  | case3 c cs hsp ih =>
    intro h
    rw [collapseWS, if_neg hsp]
    refine ⟨fun hc hm => ?_, ih h.2⟩
    rcases collapseWS_mem cs _ hm with h3 | h3
    · exact absurd h3 (by decide)
    · exact h.1 hc h3

theorem collapseWS_spacesOnly : ∀ (l : List Char), spacesOnly (collapseWS l) := by
  intro l
  induction l using collapseWS.induct with
  | case1 => intro c hc; simp [collapseWS] at hc
  | case2 c cs hsp ih =>
    intro x hx hxs
    rw [collapseWS, if_pos hsp] at hx
    rcases List.mem_cons.mp hx with h2 | h2
    · exact h2
    · exact ih x h2 hxs
  | case3 c cs hsp ih =>
    intro x hx hxs
    rw [collapseWS, if_neg hsp] at hx
    rcases List.mem_cons.mp hx with h2 | h2
    · rw [h2] at hxs; exact absurd hxs hsp
    · exact ih x h2 hxs

theorem head_dropWhile_not_space : ∀ (l : List Char) {c : Char},
    (l.dropWhile isSpace).head? = some c → isSpace c = false := by
  intro l
  induction l with
  | nil => intro c h; simp at h
  | cons x xs ih =>
    intro c h
    rw [List.dropWhile_cons] at h
    by_cases hx : isSpace x = true
    · rw [if_pos hx] at h; exact ih h
    · rw [if_neg hx] at h
      injection h with h
      rw [← h]
      simpa using hx

theorem head_collapseWS_not_space : ∀ (l : List Char),
    (∀ c, l.head? = some c → isSpace c = false) →
    ∀ c, (collapseWS l).head? = some c → isSpace c = false := by
  intro l hl c hc
  cases l with
  | nil => rw [collapseWS] at hc; simp at hc
  | cons x xs =>
    have hx : isSpace x = false := hl x rfl
    rw [collapseWS, if_neg (by simp [hx])] at hc
    injection hc with hc
    rw [← hc]
    exact hx

theorem noDoubleWS_tail : ∀ {c : Char} {l : List Char}, noDoubleWS (c :: l) → noDoubleWS l := by
  intro c l h
  cases l with
  | nil => trivial
  | cons x t => exact h.2

theorem noDoubleWS_cons : ∀ {c : Char} {l : List Char},
    noDoubleWS l → (∀ x, l.head? = some x → ¬(isSpace c = true ∧ isSpace x = true)) →
    noDoubleWS (c :: l) := by
  intro c l hl hh
  cases l with
  | nil => trivial
  | cons x t => exact ⟨hh x rfl, hl⟩

theorem collapseWS_noDoubleWS : ∀ (l : List Char), noDoubleWS (collapseWS l) := by
  intro l
  induction l using collapseWS.induct with
  | case1 => rw [collapseWS]; trivial
  | case2 c cs hsp ih =>
    rw [collapseWS, if_pos hsp]
    refine noDoubleWS_cons ih ?_
    intro x hx hand
    have hxf : isSpace x = false :=
      head_collapseWS_not_space _ (fun c2 hc2 => head_dropWhile_not_space cs hc2) x hx
    rw [hxf] at hand
    exact Bool.false_ne_true hand.2
  | case3 c cs hsp ih =>
    rw [collapseWS, if_neg hsp]
    refine noDoubleWS_cons ih ?_
    intro x hx hand
    exact hsp hand.1

theorem collapseWS_eq_self : ∀ {l : List Char},
    spacesOnly l → noDoubleWS l → collapseWS l = l := by
  intro l
  induction l with
  | nil => intro _ _; rw [collapseWS]
  | cons c cs ih =>
    intro hso hnd
    have hso2 : spacesOnly cs := fun x hx hs => hso x (List.mem_cons_of_mem _ hx) hs
    by_cases hc : isSpace c = true
    · have hcsp : c = ' ' := hso c (List.mem_cons_self ..) hc
      have hdrop : cs.dropWhile isSpace = cs := by
        cases cs with
        | nil => rfl
        | cons x t =>
          have hx : ¬ isSpace x = true := fun h2 => hnd.1 ⟨hc, h2⟩
          rw [List.dropWhile_cons, if_neg hx]
      rw [collapseWS, if_pos hc, hdrop, ih hso2 (noDoubleWS_tail hnd), hcsp]
    · rw [collapseWS, if_neg hc, ih hso2 (noDoubleWS_tail hnd)]

theorem spacesOnly_subset {l m : List Char} (hsub : l ⊆ m) (h : spacesOnly m) :
    spacesOnly l :=
  fun c hc hs => h c (hsub hc) hs

theorem noDoubleWS_append_right : ∀ {a b : List Char}, noDoubleWS (a ++ b) → noDoubleWS b := by
  intro a
  induction a with
  | nil => intro b h; exact h
  | cons c a2 ih => intro b h; exact ih (noDoubleWS_tail h)

theorem noDoubleWS_append_left : ∀ {a b : List Char}, noDoubleWS (a ++ b) → noDoubleWS a := by
  intro a
  induction a with
  | nil => intro b _; trivial
  | cons c a2 ih =>
    intro b h
    cases a2 with
    | nil => trivial
    | cons x t => exact ⟨h.1, ih (b := b) h.2⟩

theorem noDoubleWS_of_suffix {l m : List Char} (hs : l <:+ m) (h : noDoubleWS m) :
    noDoubleWS l := by
  obtain ⟨t, rfl⟩ := hs
  exact noDoubleWS_append_right h

theorem noDoubleWS_of_isPrefix {l m : List Char} (hp : l <+: m) (h : noDoubleWS m) :
    noDoubleWS l := by
  obtain ⟨t, rfl⟩ := hp
  exact noDoubleWS_append_left h

/-! ### Stripping -/

theorem lstrip_suffix (l : List Char) : lstrip l <:+ l := List.dropWhile_suffix _

theorem rstrip_isPrefix (l : List Char) : rstrip l <+: l := by
  have h : (l.reverse.dropWhile isSpace) <:+ l.reverse := List.dropWhile_suffix _
  have h2 := List.reverse_prefix.mpr h
  rwa [List.reverse_reverse] at h2

theorem lstrip_eq_self : ∀ {l : List Char},
    (∀ c, l.head? = some c → isSpace c = false) → lstrip l = l := by
  intro l h
  cases l with
  | nil => rfl
  | cons x xs =>
    have hx := h x rfl
    rw [lstrip, List.dropWhile_cons, if_neg (by simp [hx])]

theorem dropWhile_space_idem (l : List Char) :
    (l.dropWhile isSpace).dropWhile isSpace = l.dropWhile isSpace :=
  lstrip_eq_self (fun c hc => head_dropWhile_not_space l hc)

theorem rstrip_idem (l : List Char) : rstrip (rstrip l) = rstrip l := by
  unfold rstrip
  rw [List.reverse_reverse, dropWhile_space_idem]

theorem head?_of_isPrefix : ∀ {l m : List Char}, l <+: m →
    ∀ {c : Char}, l.head? = some c → m.head? = some c := by
  intro l m hp c hc
  obtain ⟨t, rfl⟩ := hp
  cases l with
  | nil => simp at hc
  | cons x xs => exact hc

theorem pyStrip_idem (l : List Char) : pyStrip (pyStrip l) = pyStrip l := by
  rw [pyStrip, pyStrip]
  have h1 : lstrip (rstrip (lstrip l)) = rstrip (lstrip l) := by
    apply lstrip_eq_self
    intro c hc
    exact head_dropWhile_not_space l (head?_of_isPrefix (rstrip_isPrefix (lstrip l)) hc)
  rw [h1, rstrip_idem]

/-! ### Idempotence of the normalizer -/

/-- **C3** is false as stated: `vcpkgize_string` is not idempotent.  On
`"<a\nb>"` the markup survives the first pass, because the regex `.` does
not match the newline inside the brackets; collapsing whitespace then
yields `"<a b>"`, which the second pass deletes entirely. -/
theorem vcpkgize_string_not_idem :
    vcpkgize_string (vcpkgize_string "<a\nb>".toList) ≠ vcpkgize_string "<a\nb>".toList := by
  have h1 : vcpkgize_string "<a\nb>".toList = "<a b>".toList := by
    simp [vcpkgize_string, removeMarkup, matchEnd, collapseWS, pyStrip, lstrip,
      rstrip, isSpace]
  have h2 : vcpkgize_string "<a b>".toList = [] := by
    simp [vcpkgize_string, removeMarkup, matchEnd, collapseWS, pyStrip, lstrip,
      rstrip, isSpace]
  rw [h1, h2]
  simp

/-- **C3** (amended): `vcpkgize_string` is idempotent on every string with
no newline character.  (With a newline inside `<...>` the first pass keeps
the markup — the regex `.` does not match a newline — while whitespace
collapsing rewrites the newline to a space, so a second pass can remove
more, as `"<a\nb>"` shows.) -/
theorem vcpkgize_string_idem (s : List Char) (h : '\n' ∉ s) :
    vcpkgize_string (vcpkgize_string s) = vcpkgize_string s := by
  have t1 : tagSafe (removeMarkup s) := removeMarkup_tagSafe s h
  have t2 : tagSafe (collapseWS (removeMarkup s)) := collapseWS_tagSafe t1
  have t3 : tagSafe (vcpkgize_string s) := by
    rw [vcpkgize_string, pyStrip]
    exact tagSafe_of_isPrefix (rstrip_isPrefix _) (tagSafe_of_suffix (lstrip_suffix _) t2)
  have so3 : spacesOnly (vcpkgize_string s) := by
    rw [vcpkgize_string, pyStrip]
    refine spacesOnly_subset ?_ (collapseWS_spacesOnly (removeMarkup s))
    intro x hx
    exact (lstrip_suffix _).subset ((rstrip_isPrefix _).subset hx)
  have nd3 : noDoubleWS (vcpkgize_string s) := by
    rw [vcpkgize_string, pyStrip]
    exact noDoubleWS_of_isPrefix (rstrip_isPrefix _)
      (noDoubleWS_of_suffix (lstrip_suffix _) (collapseWS_noDoubleWS (removeMarkup s)))
  calc vcpkgize_string (vcpkgize_string s)
      = pyStrip (collapseWS (removeMarkup (vcpkgize_string s))) := rfl
    _ = pyStrip (collapseWS (vcpkgize_string s)) := by
        rw [removeMarkup_eq_self_of_tagSafe t3]
    _ = pyStrip (vcpkgize_string s) := by
        rw [collapseWS_eq_self so3 nd3]
    _ = vcpkgize_string s := pyStrip_idem _

theorem vcpkgize_string_idem_witness :
    '\n' ∉ "a <i>b</i>  c".toList ∧
    vcpkgize_string (vcpkgize_string "a <i>b</i>  c".toList) =
      vcpkgize_string "a <i>b</i>  c".toList :=
  ⟨by decide, vcpkgize_string_idem _ (by decide)⟩

end Bloom
